import Mathlib

/-!
Verification of the octopus variant-caller core against its specification.

Each definition below is a shallow embedding of a function of the C++
source (file and symbol named in its doc comment).  Machine integers are
modelled as naturals, C++ doubles as exact rationals or reals, and the
shared-pointer indirection of `Genotype<Haplotype>` is dropped because every
comparator in the source (`HaplotypePtrLess`, `HaplotypePtrEqual`)
dereferences before comparing.
-/

namespace Octopus

/-! ## Genotype counting (src/src/genotype.cpp) -/

/-- From src/src/genotype.cpp, `num_genotypes`: returns
`binomial_coefficient(num_elements + ploidy - 1, num_elements - 1)`.
The `boost::math::binomial_coefficient<double>` call is modelled as the exact
binomial coefficient. -/
def numGenotypes (numElements ploidy : ℕ) : ℕ :=
  Nat.choose (numElements + ploidy - 1) (numElements - 1)

/-! ## Trio caller types (src/src/core/callers/trio_caller.cpp) -/

/-- An allele, abstracted to an identifier plus its insertion flag (the only
attribute the trio caller's containment helpers branch on). -/
structure AlleleId where
  id : ℕ
  isIns : Bool
deriving DecidableEq, Repr

/-- Modelled from the spec: a haplotype is a sequence of alleles
(`Haplotype` itself is not under src/); `Haplotype::contains` holds iff the
haplotype carries the allele. -/
abbrev HaplotypeT : Type := List AlleleId

/-- Modelled from the spec: `Haplotype::contains` (not under src/) — the
haplotype carries the allele. -/
def hapContains (h : HaplotypeT) (a : AlleleId) : Bool :=
  decide (a ∈ h)

/-- Modelled from the spec: `Haplotype::includes` (not under src/) — the
haplotype carries the allele (used by the source for insertion alleles). -/
def hapIncludes (h : HaplotypeT) (a : AlleleId) : Bool :=
  decide (a ∈ h)

/-- A `Genotype<Haplotype>`: the source's sorted vector of shared haplotype
pointers, modelled as the list of pointee values. -/
abbrev GenotypeT : Type := List HaplotypeT

/-- From src/src/genotype.cpp, non-member
`contains(const Genotype<Haplotype>&, const Allele&)`:
`any_of` haplotypes containing the allele. -/
def genotypeContains (g : GenotypeT) (a : AlleleId) : Bool :=
  g.any fun h => hapContains h a

/-- Modelled from the spec: non-member `includes(genotype, allele)` (declared
in genotype.hpp, not under src/) — some haplotype of the genotype includes
the allele. -/
def genotypeIncludes (g : GenotypeT) (a : AlleleId) : Bool :=
  g.any fun h => hapIncludes h a

/-- From src/src/core/callers/trio_caller.cpp, `contains_helper(genotype,
allele)`: `contains` for non-insertions, `includes` for insertions. -/
def containsHelperGen (g : GenotypeT) (a : AlleleId) : Bool :=
  if !a.isIns then genotypeContains g a else genotypeIncludes g a

/-- From src/src/core/callers/trio_caller.cpp, the trio model's
`JointProbability`: a joint genotype triple with its posterior probability
(double modelled as ℚ). -/
structure JointProb where
  maternal : GenotypeT
  paternal : GenotypeT
  child : GenotypeT
  probability : ℚ
deriving DecidableEq

/-- From src/src/core/callers/trio_caller.cpp lines 441-445, `is_denovo`:
the child's genotype contains the allele and neither parent's does. -/
def isDenovo (a : AlleleId) (t : JointProb) : Bool :=
  containsHelperGen t.child a &&
    !(containsHelperGen t.maternal a || containsHelperGen t.paternal a)

/-- From src/src/core/callers/trio_caller.cpp lines 456-463,
`compute_denovo_posterior_uncached`: the accumulated probability mass of the
joint triples that are not de novo for the allele (the posterior is then the
phred encoding of one minus this value). -/
def denovoErrorAccum (a : AlleleId) (ts : List JointProb) : ℚ :=
  ts.foldl (fun curr t => curr + (if isDenovo a t then 0 else t.probability)) 0

/-! ## Trio calling pipeline (src/src/core/callers/trio_caller.cpp) -/

/-- A called germline variant, abstracted to the alt allele of its variant
(the only attribute `none_mendilian_errors` reads). -/
structure CalledGermline where
  altAllele : AlleleId
deriving DecidableEq

/-- From src/src/core/callers/trio_caller.cpp, `CalledDenovo`, abstracted to
its allele. -/
structure CalledDenovoT where
  allele : AlleleId
deriving DecidableEq

/-- From src/src/core/callers/trio_caller.cpp, `TrioCall`: the three called
genotypes. -/
structure TrioCallT where
  mother : GenotypeT
  father : GenotypeT
  child : GenotypeT
deriving DecidableEq

/-- From src/src/core/callers/trio_caller.cpp, `includes(TrioCall, Allele)`:
some genotype of the trio includes the allele. -/
def includesTrio (t : TrioCallT) (a : AlleleId) : Bool :=
  genotypeIncludes t.mother a || genotypeIncludes t.father a || genotypeIncludes t.child a

/-- The de-novo property of an allele w.r.t. a `TrioCall` (the body of
`is_denovo` applied to the called genotypes). -/
def isDenovoCall (a : AlleleId) (t : TrioCallT) : Bool :=
  containsHelperGen t.child a &&
    !(containsHelperGen t.mother a || containsHelperGen t.father a)

/-- From src/src/core/callers/trio_caller.cpp, `none_mendilian_errors`: no
called germline variant is de novo w.r.t. the joint call. -/
def noneMendilianErrors (call : JointProb) (gs : List CalledGermline) : Bool :=
  gs.all fun g => !(isDenovo g.altAllele call)

/-- From src/src/core/callers/trio_caller.cpp, `all_mendilian_errors`: every
called de-novo allele is de novo w.r.t. the joint call. -/
def allMendilianErrors (call : JointProb) (ds : List CalledDenovoT) : Bool :=
  ds.all fun d => isDenovo d.allele call

/-- From src/src/core/callers/trio_caller.cpp, `is_viable_genotype_call`. -/
def isViableGenotypeCall (call : JointProb) (gs : List CalledGermline)
    (ds : List CalledDenovoT) : Bool :=
  noneMendilianErrors call gs && allMendilianErrors call ds

/-- From src/src/core/callers/trio_caller.cpp, `to_call`. -/
def toCall (p : JointProb) : TrioCallT :=
  ⟨p.maternal, p.paternal, p.child⟩

/-- `std::max_element` with comparator `lhs.probability < rhs.probability`:
keeps the current best unless a strictly larger element appears, so the first
maximum wins. -/
def maxElement (best : JointProb) : List JointProb → JointProb
  | [] => best
  | t :: ts => maxElement (if best.probability < t.probability then t else best) ts

/-- One step of the descending insertion modelling `std::sort` with
comparator `lhs.probability > rhs.probability`. -/
def insertDesc (t : JointProb) : List JointProb → List JointProb
  | [] => [t]
  | u :: us => if u.probability < t.probability then t :: u :: us else u :: insertDesc t us

/-- The descending sort of the trio posteriors used by `call_trio` (ties are
left in a fixed order; `std::sort` leaves their order unspecified). -/
def sortDescProb (ts : List JointProb) : List JointProb :=
  ts.foldr insertDesc []

/-- From src/src/core/callers/trio_caller.cpp lines 619-646, `call_trio`:
return the MAP triple if it is the only one or is viable; otherwise search
the remaining triples in descending posterior order for a viable one and
fall back to the MAP triple if none exists.  The source asserts the input
non-empty; the empty case is mapped to `none`. -/
def callTrio (ts : List JointProb) (gs : List CalledGermline)
    (ds : List CalledDenovoT) : Option TrioCallT :=
  match ts with
  | [] => none
  | t :: rest =>
    let mapJP := maxElement t rest
    if rest.isEmpty || isViableGenotypeCall mapJP gs ds then
      some (toCall mapJP)
    else
      match ((sortDescProb (t :: rest)).drop 1).find?
          (fun p => isViableGenotypeCall p gs ds) with
      | some p => some (toCall p)
      | none => some (toCall mapJP)

/-- From src/src/core/callers/trio_caller.cpp lines 658-664,
`remove_ungenotyped_allele` on de-novo calls: erase the calls whose allele no
genotype of the called trio includes. -/
def removeUngenotypedDenovos (ds : List CalledDenovoT) (t : TrioCallT) :
    List CalledDenovoT :=
  ds.filter fun d => includesTrio t d.allele

/-- From src/src/core/callers/trio_caller.cpp lines 658-664,
`remove_ungenotyped_allele` on germline calls. -/
def removeUngenotypedGermline (gs : List CalledGermline) (t : TrioCallT) :
    List CalledGermline :=
  gs.filter fun g => includesTrio t g.altAllele

/-- Example allele for the concrete trio scenarios: a single non-insertion
allele. -/
def alleleC3 : AlleleId := ⟨1, false⟩

/-- Example joint triple in which mother and child both carry the allele. -/
def jointC3 : JointProb := ⟨[[alleleC3]], [[]], [[alleleC3]], 3/5⟩

/-- Example joint triple in which nobody carries the allele. -/
def jointC3b : JointProb := ⟨[[]], [[]], [[]], 2/5⟩

/-! ## Genotype sorted-vector operations (src/src/genotype.cpp)

`Genotype<Haplotype>` stores shared pointers ordered by `HaplotypePtrLess`,
which dereferences before comparing; haplotype values are modelled as
naturals and the vector as a list. -/

/-- From src/src/genotype.cpp, `Genotype<Haplotype>::emplace`: `push_back`
followed by `inplace_merge` of the sorted prefix with the one-element
suffix, i.e. stable insertion of the new value after any equal elements. -/
def emplaceG : List ℕ → ℕ → List ℕ
  | [], h => [h]
  | x :: xs, h => if h < x then h :: x :: xs else x :: emplaceG xs h

/-- From src/src/genotype.cpp, `Genotype<Haplotype>::contains`:
`std::binary_search` — `lower_bound`, then a dereference check, modelled
linearly (on sorted input the two agree). -/
def containsG : List ℕ → ℕ → Bool
  | [], _ => false
  | x :: xs, h => if x < h then containsG xs h else decide (¬ h < x)

/-- From src/src/genotype.cpp, `Genotype<Haplotype>::count`: the distance
spanned by `std::equal_range`, modelled linearly as the length of the
equivalence run following the lower bound. -/
def countG (g : List ℕ) (h : ℕ) : ℕ :=
  ((g.dropWhile fun x => decide (x < h)).takeWhile fun x => !(decide (h < x))).length

/-- From src/src/genotype.cpp, `Genotype<Haplotype>::zygosity`: walk the
vector, hopping with `find_if_not` over each run of elements equal to the
run's head. -/
def zygosityG : List ℕ → ℕ
  | [] => 0
  | x :: xs => 1 + zygosityG (xs.dropWhile fun y => y == x)
termination_by l => l.length
decreasing_by
  simp only [List.length_cons]
  exact Nat.lt_succ_of_le (List.dropWhile_sublist _).length_le

/-- From src/src/genotype.cpp, `Genotype<Haplotype>::is_homozygous`:
`front == back` (the empty case, undefined in the source, is mapped to
`true`). -/
def isHomozygousG : List ℕ → Bool
  | [] => true
  | x :: xs => x == xs.getLastD x

/-- The `initializer_list` constructor of `Genotype<Haplotype>`: the
elements are sorted (`std::sort` with `HaplotypePtrLess`), modelled by
insertion sort — on totally ordered values the sorted output is unique. -/
def sortHaps (l : List ℕ) : List ℕ :=
  l.foldr (fun x acc => emplaceG acc x) []

/-! ## Variants and the CIGAR scanner (src/src/core/tools/vargen/cigar_scanner.cpp)

`Variant`, `Allele` and their helpers live in core/types (not under src/),
so the variant data model is taken from the spec's data-model section:
a variant is a ref/alt pair of sequences over one genomic region. -/

/-- Modelled from the spec: a `GenomicRegion` — contig identifier plus
half-open zero-based interval (contigs abstracted to naturals). -/
structure RegionM where
  contig : ℕ
  low : ℕ
  high : ℕ
deriving DecidableEq, Repr

/-- Region size (`region_size`, not under src/): length of the half-open
interval. -/
def regionSizeR (r : RegionM) : ℕ := r.high - r.low

/-- Modelled from the spec: a `Variant` — ref and alt sequences sharing one
region. -/
structure VariantM where
  region : RegionM
  refSeq : List Char
  altSeq : List Char
deriving DecidableEq, Repr

/-- `region_size(variant)` (not under src/). -/
def regionSizeV (v : VariantM) : ℕ := regionSizeR v.region

/-- `alt_sequence_size(variant)` (not under src/): length of the alt
sequence. -/
def altSequenceSize (v : VariantM) : ℕ := v.altSeq.length

/-- Modelled from the spec: an insertion has an empty region and a
non-empty (alt) sequence (`is_insertion`, not under src/). -/
def isInsertionV (v : VariantM) : Bool :=
  decide (v.region.low = v.region.high) && decide (v.altSeq ≠ [])

/-- Modelled from the spec: a deletion has a non-empty region and an empty
(alt) sequence (`is_deletion`, not under src/). -/
def isDeletionV (v : VariantM) : Bool :=
  decide (v.region.low < v.region.high) && decide (v.altSeq = [])

/-- Modelled from the spec: an SNV substitutes a single base
(`is_snv`, not under src/). -/
def isSnvV (v : VariantM) : Bool :=
  decide (regionSizeV v = 1) && decide (v.altSeq.length = 1)

/-- Modelled from the spec: an MNV substitutes several bases in place
(`is_mnv`, not under src/). -/
def isMnvV (v : VariantM) : Bool :=
  decide (1 < regionSizeV v) && decide (v.refSeq.length = regionSizeV v) &&
    decide (v.altSeq.length = regionSizeV v)

/-- The variant type used by `are_same_type`. -/
inductive VTypeM where
  | snv
  | mnv
  | insertion
  | deletion
  | other
deriving DecidableEq, Repr

/-- The classification backing `are_same_type` (not under src/). -/
def typeOfV (v : VariantM) : VTypeM :=
  if isSnvV v then VTypeM.snv
  else if isMnvV v then VTypeM.mnv
  else if isInsertionV v then VTypeM.insertion
  else if isDeletionV v then VTypeM.deletion
  else VTypeM.other

/-- `are_same_type` (not under src/): equal variant types. -/
def areSameType (lhs rhs : VariantM) : Bool :=
  typeOfV lhs == typeOfV rhs

/-- Modelled from the spec: `overlaps` on regions (not under src/) — same
contig and intersecting half-open intervals. -/
def overlapsV (lhs rhs : VariantM) : Bool :=
  decide (lhs.region.contig = rhs.region.contig) &&
    decide (lhs.region.low < rhs.region.high) &&
    decide (rhs.region.low < lhs.region.high)

/-- From src/src/core/tools/vargen/cigar_scanner.cpp lines 700-712,
`DefaultMatchPredicate::operator()`: exact equality for differing types and
for SNVs/MNVs; for insertions of equal alt length, equality of the counts
of placeholder bases; otherwise region overlap. -/
def defaultMatch (lhs rhs : VariantM) : Bool :=
  if !(areSameType lhs rhs) || isSnvV lhs || isMnvV lhs then
    decide (lhs = rhs)
  else if isInsertionV lhs && (altSequenceSize lhs == altSequenceSize rhs) then
    lhs.altSeq.count 'N' == rhs.altSeq.count 'N'
  else
    overlapsV lhs rhs

/-- The deduplication rule exactly as the claim words it: same type, same
region, and the per-type alt-sequence condition (SNV/MNV equality,
insertion length and N-count, deletion overlap). -/
def claimedMatchPredicate (lhs rhs : VariantM) : Bool :=
  areSameType lhs rhs && decide (lhs.region = rhs.region) &&
    (if isSnvV lhs || isMnvV lhs then decide (lhs = rhs)
     else if isInsertionV lhs then
       (altSequenceSize lhs == altSequenceSize rhs) &&
         (lhs.altSeq.count 'N' == rhs.altSeq.count 'N')
     else if isDeletionV lhs then overlapsV lhs rhs
     else decide (lhs = rhs))

/-! ### The germline inclusion rule -/

/-- From src/src/core/tools/vargen/cigar_scanner.cpp, `sum`: total of the
observed per-read quality sums. -/
def sumQ (qs : List ℕ) : ℕ := qs.sum

/-- From src/src/core/tools/vargen/cigar_scanner.cpp, `erase_below`: drop
observations whose quality is below the threshold. -/
def eraseBelow (qs : List ℕ) (m : ℕ) : List ℕ :=
  qs.filter fun q => !(decide (q < m))

/-- From src/src/core/tools/vargen/cigar_scanner.cpp,
`is_completely_strand_biased`: there is support and it sits entirely on one
strand. -/
def isCompletelyStrandBiased (fwd rev : ℕ) : Bool :=
  decide (0 < fwd + rev) && (fwd == 0 || fwd == fwd + rev)

/-- Modelled from the spec: `maths::median` (utils/maths.hpp is not under
src/) — middle of the sorted values, averaging the two central ones for
even length. -/
def medianQ (qs : List ℕ) : ℚ :=
  let s := sortHaps qs
  if qs.length % 2 = 1 then (s.getD (qs.length / 2) 0 : ℚ)
  else ((s.getD (qs.length / 2 - 1) 0 : ℚ) + (s.getD (qs.length / 2) 0 : ℚ)) / 2

/-- From src/src/core/tools/vargen/cigar_scanner.cpp,
`is_likely_runthrough_artifact`: at least 10 observations, completely
strand-biased, and median base quality below 15. -/
def isLikelyRunthroughArtifact (fwd rev : ℕ) (qs : List ℕ) : Bool :=
  if fwd + rev < 10 || !(isCompletelyStrandBiased fwd rev) then false
  else decide (medianQ qs < 15)

/-- Modelled from the spec: `utils::is_tandem_repeat` (not under src/) — the
sequence is a whole number of at least two repeats of a block of the given
period. -/
def isTandemRepeatSeq (s : List Char) (period : ℕ) : Bool :=
  decide (0 < period) && decide (period < s.length) && decide (s.length % period = 0) &&
    ((List.range (s.length - period)).all fun i => s.getD i ' ' == s.getD (i + period) ' ')

/-- From src/src/core/tools/vargen/cigar_scanner.cpp, `is_tandem_repeat`:
some period up to 4 makes the allele sequence a tandem repeat. -/
def isTandemRepeatAllele (s : List Char) : Bool :=
  (List.range 5).any fun period => isTandemRepeatSeq s period

/-- The maximum observation, as selected by the `partial_sort` of the top
two followed by indexing the front. -/
def maxQual (qs : List ℕ) : ℕ := qs.foldr max 0

/-- Exact-real decision of `support / (depth - sqrt(depth)) > 0.1` from the
long-deletion branch of `is_good_germline` (the C++ evaluates it in double
precision; this is the exact value of the comparison). -/
def longDeletionVafPass (support depth : ℕ) : Bool :=
  decide (depth < 10 * support) ||
    decide ((depth - 10 * support) * (depth - 10 * support) < depth)

/-- From src/src/core/tools/vargen/cigar_scanner.cpp lines 498-546,
`is_good_germline`: the per-sample support rule of the default inclusion
predicate.  Unsigned arithmetic is modelled on ℕ (truncated subtraction for
the reverse-strand counts, which the source only uses with
`forward ≤ total`), and double-precision ratios as exact rationals. -/
def isGoodGermline (v : VariantM) (depth forwardStrandDepth forwardStrandSupport : ℕ)
    (observedQualities : List ℕ) : Bool :=
  let support := observedQualities.length
  if depth < 4 then
    decide (1 < support) || decide (30 ≤ sumQ observedQualities) || isDeletionV v
  else
    let reverseStrandDepth := depth - forwardStrandDepth
    let reverseStrandSupport := support - forwardStrandSupport
    if decide (20 < support) && decide (1 < min forwardStrandDepth reverseStrandDepth) &&
        isCompletelyStrandBiased forwardStrandSupport reverseStrandSupport then false
    else if isSnvV v then
      if isLikelyRunthroughArtifact forwardStrandSupport reverseStrandSupport
          observedQualities then false
      else
        let filtered := eraseBelow observedQualities 20
        if depth ≤ 10 then decide (1 < filtered.length)
        else decide (2 < filtered.length) &&
          decide ((1 : ℚ) / 10 < (filtered.length : ℚ) / (depth : ℚ))
    else if isInsertionV v then
      if support == 1 && decide (10 < altSequenceSize v) then false
      else if depth < 10 then
        decide (1 < support) ||
          (decide (3 < altSequenceSize v) && isTandemRepeatAllele v.altSeq)
      else if depth ≤ 30 then
        decide (1 < support)
      else if depth ≤ 60 then
        if support == 1 then false
        else if decide ((3 : ℚ) / 10 < (support : ℚ) / (depth : ℚ)) then true
        else
          let filtered := eraseBelow observedQualities 25
          if filtered.length ≤ 1 then false
          else if decide (2 < filtered.length) then true
          else decide ((20 : ℚ) < (maxQual filtered : ℚ) / (altSequenceSize v : ℚ))
      else
        if support == 1 then false
        else if decide ((7 : ℚ) / 20 < (support : ℚ) / (depth : ℚ)) then true
        else
          let filtered := eraseBelow observedQualities 20
          if filtered.length ≤ 1 then false
          else if decide (3 < filtered.length) then true
          else decide ((20 : ℚ) < (filtered.headD 0 : ℚ) / (altSequenceSize v : ℚ))
    else
      if regionSizeV v < 10 then
        decide (1 < support) && decide ((1 : ℚ) / 20 < (support : ℚ) / (depth : ℚ))
      else
        longDeletionVafPass support depth

/-- The SNV inclusion rule exactly as the claim words it: either at least
two supporting reads of base quality at least 20 together with raw
support/depth above 0.1, or depth at most 10 and at least two supporting
reads regardless of quality. -/
def claimedSnvRule (depth : ℕ) (qs : List ℕ) : Bool :=
  (decide (2 ≤ (eraseBelow qs 20).length) &&
    decide ((1 : ℚ) / 10 < (qs.length : ℚ) / (depth : ℚ))) ||
  (decide (depth ≤ 10) && decide (2 ≤ qs.length))

/-- Concrete SNV used by the scanner theorems. -/
def snvEx : VariantM := ⟨⟨0, 5, 6⟩, ['A'], ['C']⟩

/-- Concrete insertion at position 5. -/
def insEx1 : VariantM := ⟨⟨0, 5, 5⟩, [], ['A', 'A']⟩

/-- Concrete insertion at position 9, same length and N-count as the one at
position 5 but a different region. -/
def insEx2 : VariantM := ⟨⟨0, 9, 9⟩, [], ['C', 'A']⟩

/-! ## Read transforms (src/unnamed/part_001, read_transformations.cpp) -/

/-- An aligned read as the quality-masking transforms see it: per-base
qualities plus the non-quality attributes the masks inspect.  The
`AlignedRead` accessors themselves (`zero_front_qualities`,
`zero_back_qualities`, `next_segment`, `get_soft_clipped_sizes`) are not
under src/ and are modelled from the spec: masking only zeroes base
qualities; the soft-clip sizes are carried as fields. -/
structure ReadM where
  qualities : List ℕ
  isChimeric : Bool
  isReverse : Bool
  nextSegmentBegin : ℕ
  inferredTemplateLength : ℕ
  mappedEnd : ℕ
  clipFront : ℕ
  clipBack : ℕ
deriving DecidableEq, Repr

/-- Zero the elements selected by the index predicate, starting at index
`j`. -/
def maskFrom (f : ℕ → Bool) : ℕ → List ℕ → List ℕ
  | _, [] => []
  | j, q :: qs => (if f j then 0 else q) :: maskFrom f (j + 1) qs

/-- Modelled from the spec: `AlignedRead::zero_front_qualities n` — zero
the first `n` base qualities. -/
def zeroFront (n : ℕ) (qs : List ℕ) : List ℕ :=
  maskFrom (fun i => decide (i < n)) 0 qs

/-- Modelled from the spec: `AlignedRead::zero_back_qualities n` — zero the
last `n` base qualities. -/
def zeroBack (n : ℕ) (qs : List ℕ) : List ℕ :=
  maskFrom (fun i => decide (qs.length - n ≤ i)) 0 qs

/-- `is_soft_clipped` (not under src/): some side has soft clips. -/
def isSoftClippedR (r : ReadM) : Bool :=
  decide (0 < r.clipFront) || decide (0 < r.clipBack)

/-- The five transforms of src/unnamed/part_001 (read_transformations.cpp),
as one family. -/
inductive TransformM where
  | overlappedSegment
  | adapters
  | tail (n : ℕ)
  | softClipped
  | softClippedBoundaries (n : ℕ)
deriving DecidableEq, Repr

/-- From src/unnamed/part_001 lines 137-203: `MaskOverlappedSegment`,
`MaskAdapters`, `MaskTail`, `MaskSoftClipped` and `MaskSoftClippedBoundries`
(each a `operator()` mutating the read in place, modelled functionally). -/
def applyTransform : TransformM → ReadM → ReadM
  | TransformM.overlappedSegment, r =>
    if r.isChimeric && !r.isReverse then
      if r.nextSegmentBegin < r.mappedEnd then
        { r with qualities := zeroBack (r.mappedEnd - r.nextSegmentBegin) r.qualities }
      else r
    else r
  | TransformM.adapters, r =>
    if r.isChimeric then
      if r.inferredTemplateLength ≤ r.qualities.length then
        let numAdapterBases := r.qualities.length - r.inferredTemplateLength
        if r.isReverse then { r with qualities := zeroBack numAdapterBases r.qualities }
        else { r with qualities := zeroFront numAdapterBases r.qualities }
      else r
    else r
  | TransformM.tail n, r =>
    if r.isReverse then { r with qualities := zeroFront n r.qualities }
    else { r with qualities := zeroBack n r.qualities }
  | TransformM.softClipped, r =>
    if isSoftClippedR r then
      { r with qualities := zeroBack r.clipBack (zeroFront r.clipFront r.qualities) }
    else r
  | TransformM.softClippedBoundaries n, r =>
    if isSoftClippedR r then
      let q1 := if 0 < r.clipFront then zeroFront (r.clipFront + n) r.qualities
                else r.qualities
      let q2 := if 0 < r.clipBack then zeroBack (r.clipBack + n) q1 else q1
      { r with qualities := q2 }
    else r

/-- The number of front qualities a transform zeroes, a function of the
read's non-quality attributes and its length only. -/
def aFun : TransformM → ReadM → ℕ
  | TransformM.overlappedSegment, _ => 0
  | TransformM.adapters, r =>
    if r.isChimeric && decide (r.inferredTemplateLength ≤ r.qualities.length) &&
        !r.isReverse then
      r.qualities.length - r.inferredTemplateLength
    else 0
  | TransformM.tail n, r => if r.isReverse then n else 0
  | TransformM.softClipped, r => if isSoftClippedR r then r.clipFront else 0
  | TransformM.softClippedBoundaries n, r =>
    if isSoftClippedR r && decide (0 < r.clipFront) then r.clipFront + n else 0

/-- The number of back qualities a transform zeroes. -/
def bFun : TransformM → ReadM → ℕ
  | TransformM.overlappedSegment, r =>
    if r.isChimeric && !r.isReverse && decide (r.nextSegmentBegin < r.mappedEnd) then
      r.mappedEnd - r.nextSegmentBegin
    else 0
  | TransformM.adapters, r =>
    if r.isChimeric && decide (r.inferredTemplateLength ≤ r.qualities.length) &&
        r.isReverse then
      r.qualities.length - r.inferredTemplateLength
    else 0
  | TransformM.tail n, r => if r.isReverse then 0 else n
  | TransformM.softClipped, r => if isSoftClippedR r then r.clipBack else 0
  | TransformM.softClippedBoundaries n, r =>
    if isSoftClippedR r && decide (0 < r.clipBack) then r.clipBack + n else 0

/-! ## Contig-ploidy option processing (src/src/program_options.cpp) -/

/-- From src/src/program_options.cpp, `ContigPloidy` (contigs abstracted to
naturals). -/
structure ContigPloidyM where
  contig : ℕ
  ploidy : ℕ
deriving DecidableEq, Repr

/-- The comparator of `remove_duplicate_ploidies` (lines 1747-1750): by
contig, then by ploidy. -/
def cpLess (lhs rhs : ContigPloidyM) : Bool :=
  if lhs.contig == rhs.contig then decide (lhs.ploidy < rhs.ploidy)
  else decide (lhs.contig < rhs.contig)

/-- Insertion step modelling the `std::sort` of
`remove_duplicate_ploidies`; the comparator is total up to exact
duplicates, for which order is immaterial. -/
def cpInsert (x : ContigPloidyM) : List ContigPloidyM → List ContigPloidyM
  | [] => [x]
  | y :: ys => if cpLess x y then x :: y :: ys else y :: cpInsert x ys

/-- The sort of `remove_duplicate_ploidies`. -/
def cpSort (l : List ContigPloidyM) : List ContigPloidyM :=
  l.foldr cpInsert []

/-- Tail walk of `std::unique`: skip entries equal to the last kept one. -/
def cpUniqueTail (x : ContigPloidyM) : List ContigPloidyM → List ContigPloidyM
  | [] => []
  | y :: ys => if x == y then cpUniqueTail x ys else y :: cpUniqueTail y ys

/-- The `std::unique` of `remove_duplicate_ploidies` (lines 1752-1757):
drop adjacent entries equal on both fields. -/
def cpUniqueAdj : List ContigPloidyM → List ContigPloidyM
  | [] => []
  | x :: xs => x :: cpUniqueTail x xs

/-- From src/src/program_options.cpp lines 1745-1758,
`remove_duplicate_ploidies`: sort, then erase exact duplicates. -/
def removeDuplicatePloidies (l : List ContigPloidyM) : List ContigPloidyM :=
  cpUniqueAdj (cpSort l)

/-- From src/src/program_options.cpp lines 1760-1767,
`has_ambiguous_ploidies`: `std::adjacent_find` on equal contigs. -/
def hasAmbiguousPloidies : List ContigPloidyM → Bool
  | [] => false
  | [_] => false
  | x :: y :: ys => (x.contig == y.contig) || hasAmbiguousPloidies (y :: ys)

/-- From src/src/program_options.cpp lines 1769-1809, the pure core of
`extract_contig_ploidies` applied to the parsed file and option entries:
deduplicate exactly, and yield `boost::none` when one contig still carries
two ploidies (the source only logs a warning when this happens; the
consumer `make_variant_caller_factory`, lines 1930-1950, tests the optional
with an empty `// TODO` branch and then dereferences it regardless, so no
usage error is raised). -/
def extractContigPloidies (entries : List ContigPloidyM) :
    Option (List ContigPloidyM) :=
  let r := removeDuplicatePloidies entries
  if hasAmbiguousPloidies r then none else some r

/-! ## Read-file handle pool (src/unnamed/part_003, read_manager.cpp)

`open_readers_` is a `std::map<Path, ReadReader, FileSizeCompare>`: file
paths keyed by their on-disk size, so iteration is in ascending size order
and at most one entry per size-equivalence class exists.  Paths are
abstracted to naturals and the size lookup to a function `sz`. -/

/-- The pool state: the open map as its ascending-by-size key list, and the
closed set as a list. -/
structure RMState where
  openReaders : List ℕ
  closedReaders : List ℕ
deriving DecidableEq, Repr

/-- From src/unnamed/part_003 lines 437-440, `choose_reader_to_close`:
`open_readers_.begin()->first`, the smallest file size. -/
def chooseReaderToClose (s : RMState) : Option ℕ :=
  s.openReaders.head?

/-- `std::map::erase(key)` under `FileSizeCompare`: remove the entry whose
key is size-equivalent to the given path. -/
def mapErase (sz : ℕ → ℕ) (p : ℕ) : List ℕ → List ℕ
  | [] => []
  | q :: qs => if sz q == sz p then qs else q :: mapErase sz p qs

/-- `std::map::emplace` under `FileSizeCompare`: insert in ascending size
order unless a size-equivalent key is already present. -/
def mapEmplace (sz : ℕ → ℕ) (p : ℕ) : List ℕ → List ℕ
  | [] => [p]
  | q :: qs =>
    if sz p < sz q then p :: q :: qs
    else if sz q == sz p then q :: qs
    else q :: mapEmplace sz p qs

/-- Insert into the closed set (a `std::unordered_set`). -/
def insertClosed (p : ℕ) (l : List ℕ) : List ℕ :=
  if p ∈ l then l else p :: l

/-- From src/unnamed/part_003 lines 430-435, `close_reader`: erase from the
open map, insert into the closed set. -/
def closeReader (sz : ℕ → ℕ) (p : ℕ) (s : RMState) : RMState :=
  { openReaders := mapErase sz p s.openReaders,
    closedReaders := insertClosed p s.closedReaders }

/-- From src/unnamed/part_003 lines 394-401, `open_reader`: when the pool
is full, close the reader chosen for eviction first; then emplace the new
reader and drop it from the closed set.  (`choose_reader_to_close` on an
empty map is undefined in the source; it can only happen when
`max_open_files_` is zero and is mapped to a no-close here.) -/
def openReaderOp (sz : ℕ → ℕ) (maxOpen : ℕ) (p : ℕ) (s : RMState) : RMState :=
  let s1 :=
    if s.openReaders.length = maxOpen then
      match chooseReaderToClose s with
      | some q => closeReader sz q s
      | none => s
    else s
  { openReaders := mapEmplace sz p s1.openReaders,
    closedReaders := s1.closedReaders.erase p }

/-- From src/unnamed/part_003 lines 442-447, `close_readers(n)`: close the
eviction choice `n` times. -/
def closeReadersOp (sz : ℕ → ℕ) : ℕ → RMState → RMState
  | 0, s => s
  | n + 1, s =>
    match chooseReaderToClose s with
    | some q => closeReadersOp sz n (closeReader sz q s)
    | none => s

/-- From src/unnamed/part_003 lines 403-428, `open_readers(first, last)`:
open everything if it fits in the free space; otherwise close
`min(num_open, requested - available)` readers and open the last
`available` requested paths.  (The returned iterator marks the paths that
were opened; only the state effect is modelled.) -/
def openReadersRange (sz : ℕ → ℕ) (maxOpen : ℕ) (paths : List ℕ) (s : RMState) :
    RMState :=
  if paths.isEmpty then s
  else
    let available := maxOpen - s.openReaders.length
    let requested := paths.length
    if requested ≤ available then
      paths.foldl (fun st q => openReaderOp sz maxOpen q st) s
    else
      let numToClose := min s.openReaders.length (requested - available)
      let s2 := closeReadersOp sz numToClose s
      let available2 := available + numToClose
      (paths.drop (requested - available2)).foldl
        (fun st q => openReaderOp sz maxOpen q st) s2

/-- The open/close operations the pool exposes. -/
inductive PoolOp where
  | openOne (p : ℕ)
  | openMany (paths : List ℕ)
  | closeOne (p : ℕ)
deriving DecidableEq, Repr

/-- One pool operation. -/
def stepPool (sz : ℕ → ℕ) (maxOpen : ℕ) : PoolOp → RMState → RMState
  | PoolOp.openOne p, s => openReaderOp sz maxOpen p s
  | PoolOp.openMany ps, s => openReadersRange sz maxOpen ps s
  | PoolOp.closeOne p, s => closeReader sz p s

/-- A sequence of pool operations. -/
def runPool (sz : ℕ → ℕ) (maxOpen : ℕ) (ops : List PoolOp) (s : RMState) : RMState :=
  ops.foldl (fun st op => stepPool sz maxOpen op st) s

/-- The pool invariant: the open map is strictly ascending by size and
holds at most `maxOpen` readers. -/
def poolInv (sz : ℕ → ℕ) (maxOpen : ℕ) (s : RMState) : Prop :=
  List.Pairwise (fun a b => sz a < sz b) s.openReaders ∧
    s.openReaders.length ≤ maxOpen

/-! ## Read misalignment probability (src/src/core/tools/vargen/cigar_scanner.cpp)

The double-precision arithmetic of `ln_probability_read_correctly_aligned`
is modelled over the reals. -/

/-- The read attributes this computation touches: mapping quality and
mapped-region size. -/
structure ReadAln where
  mappingQuality : ℕ
  regionSize : ℕ
deriving DecidableEq, Repr

/-- Modelled from the spec: `maths::constants::ln10Div10` (utils/maths.hpp
is not under src/). -/
noncomputable def ln10Div10 : ℝ := Real.log 10 / 10

/-- Modelled from the spec: the Poisson survival function P(X > k) at mean
μ, the quantity whose log `maths::log_poisson_sf` (not under src/)
returns. -/
noncomputable def poissonSf (k : ℕ) (mu : ℝ) : ℝ :=
  1 - ∑ i ∈ Finset.range (k + 1), Real.exp (-mu) * mu ^ i / (Nat.factorial i)

/-- Modelled from the spec: `maths::log_poisson_sf` (not under src/). -/
noncomputable def logPoissonSf (k : ℕ) (mu : ℝ) : ℝ :=
  Real.log (poissonSf k mu)

/-- From src/src/core/tools/vargen/cigar_scanner.cpp lines 61-74,
`ln_probability_read_correctly_aligned`: zero when the floored penalty is
zero, otherwise `log(1 - exp(-ln10/10 * MQ)) + log_poisson_sf(k, μ·|region|)`. -/
noncomputable def lnProbabilityReadCorrectlyAligned (misalignPenalty : ℝ)
    (read : ReadAln) (maxExpectedMutationRate : ℝ) : ℝ :=
  let k := ⌊misalignPenalty⌋₊
  if k = 0 then 0
  else
    let lnProbMissmapped := -ln10Div10 * (read.mappingQuality : ℝ)
    let lnProbMapped := Real.log (1 - Real.exp lnProbMissmapped)
    let mu := maxExpectedMutationRate * (read.regionSize : ℝ)
    lnProbMapped + logPoissonSf k mu

/-- The formula exactly as the claim words it:
`log(1 − 10^(−MQ/10)) + log Poisson_sf(⌊ℓ⌋; μ·|read|)`, with no special
case for a floored penalty of zero. -/
noncomputable def claimedLnProbability (misalignPenalty : ℝ) (read : ReadAln)
    (maxExpectedMutationRate : ℝ) : ℝ :=
  Real.log (1 - (10 : ℝ) ^ (-(read.mappingQuality : ℝ) / 10)) +
    logPoissonSf ⌊misalignPenalty⌋₊
      (maxExpectedMutationRate * (read.regionSize : ℝ))

/-- The misalignment options of the scanner. -/
structure MisalignmentParams where
  maxExpectedMutationRate : ℝ
  minLnProbCorrectlyAligned : ℝ

/-- From src/src/core/tools/vargen/cigar_scanner.cpp lines 354-360,
`CigarScanner::is_likely_misaligned`: the computed log probability is below
`min_ln_prob_correctly_aligned`. -/
def isLikelyMisaligned (params : MisalignmentParams) (read : ReadAln)
    (penalty : ℝ) : Prop :=
  lnProbabilityReadCorrectlyAligned penalty read params.maxExpectedMutationRate <
    params.minLnProbCorrectlyAligned

/-- Where `add_read` sends a read's buffered candidates. -/
inductive CandidateBucket where
  | main
  | misaligned
deriving DecidableEq, Repr

open Classical in
/-- From src/src/core/tools/vargen/cigar_scanner.cpp lines 176-181, the end
of `add_read`: buffered candidates go to the main candidate set unless the
read is likely misaligned, in which case they go to the likely-misaligned
bucket. -/
noncomputable def addReadRoute (params : MisalignmentParams) (read : ReadAln)
    (penalty : ℝ) : CandidateBucket :=
  if ¬ isLikelyMisaligned params read penalty then CandidateBucket.main
  else CandidateBucket.misaligned

/-! ## Theorems for C6 and C2 -/

theorem denovoErrorAccum_go (a : AlleleId) (ts : List JointProb) (q : ℚ) :
    ts.foldl (fun curr t => curr + (if isDenovo a t then 0 else t.probability)) q
      = q + ((ts.filter fun t => !(isDenovo a t)).map JointProb.probability).sum := by
  induction ts generalizing q with
  | nil => simp
  | cons t ts ih =>
    by_cases h : isDenovo a t = true
    · simp [List.foldl_cons, h, ih]
    · simp only [Bool.not_eq_true] at h
      simp [List.foldl_cons, h, ih]
      ring

/-- C6: for n ≥ 1 elements and any ploidy p, `num_genotypes(n, p)` is the
multiset coefficient C(n+p-1, p), i.e. the number of multisets of
cardinality p over n elements. -/
theorem numGenotypes_eq_multiset_coefficient (n p : ℕ) (hn : 1 ≤ n) :
    numGenotypes n p = Nat.choose (n + p - 1) p ∧
      numGenotypes n p = Fintype.card (Sym (Fin n) p) := by
  obtain ⟨m, rfl⟩ : ∃ m, n = m + 1 := ⟨n - 1, (Nat.succ_pred_eq_of_pos hn).symm⟩
  have h1 : numGenotypes (m + 1) p = Nat.choose (m + p) p := by
    unfold numGenotypes
    have hle : p ≤ m + p := Nat.le_add_left p m
    have hsymm := Nat.choose_symm hle
    simpa [Nat.add_sub_cancel] using hsymm
  have h2 : Fintype.card (Sym (Fin (m + 1)) p) = Nat.choose (m + p) p := by
    rw [Sym.card_sym_eq_multichoose, Nat.multichoose_eq, Fintype.card_fin]
    congr 1
    omega
  constructor
  · simpa [Nat.add_sub_cancel] using h1
  · rw [h1, h2]

/-- Witness for C6 at n = 3, p = 2. -/
theorem numGenotypes_eq_multiset_coefficient_witness :
    numGenotypes 3 2 = Nat.choose 4 2 ∧
      numGenotypes 3 2 = Fintype.card (Sym (Fin 3) 2) :=
  numGenotypes_eq_multiset_coefficient 3 2 (by decide)

theorem isDenovo_iff (a : AlleleId) (t : JointProb) :
    isDenovo a t = true ↔
      (containsHelperGen t.child a = true ∧ containsHelperGen t.maternal a = false ∧
        containsHelperGen t.paternal a = false) := by
  cases hc : containsHelperGen t.child a <;>
    cases hm : containsHelperGen t.maternal a <;>
      cases hf : containsHelperGen t.paternal a <;>
        simp [isDenovo, hc, hm, hf]

/-- C2: an allele is de novo w.r.t. a joint genotype triple iff the child's
genotype contains it and neither the maternal nor the paternal genotype
contains it; and the de-novo posterior is one minus the summed probability
of the joint triples that are not de novo for the allele. -/
theorem trio_denovo_definition_and_posterior (a : AlleleId) (t : JointProb)
    (ts : List JointProb) :
    (isDenovo a t = true ↔
      (containsHelperGen t.child a = true ∧ containsHelperGen t.maternal a = false ∧
        containsHelperGen t.paternal a = false)) ∧
    1 - denovoErrorAccum a ts
      = 1 - ((ts.filter fun q => !(isDenovo a q)).map JointProb.probability).sum := by
  constructor
  · exact isDenovo_iff a t
  · unfold denovoErrorAccum
    rw [denovoErrorAccum_go]
    ring

/-! ## Theorems for C3 -/

theorem maxElement_mem (t : JointProb) (ts : List JointProb) :
    maxElement t ts ∈ t :: ts := by
  induction ts generalizing t with
  | nil => simp [maxElement]
  | cons u us ih =>
    simp only [maxElement]
    have hb := ih (if t.probability < u.probability then u else t)
    rcases List.mem_cons.mp hb with h1 | h1
    · rw [h1]
      split
      · exact List.mem_cons_of_mem _ (List.mem_cons_self _ _)
      · exact List.mem_cons_self _ _
    · exact List.mem_cons_of_mem _ (List.mem_cons_of_mem _ h1)

theorem mem_insertDesc {u t : JointProb} {ts : List JointProb} :
    u ∈ insertDesc t ts ↔ u = t ∨ u ∈ ts := by
  induction ts with
  | nil => simp [insertDesc]
  | cons v vs ih =>
    simp only [insertDesc]
    split
    · simp
    · simp only [List.mem_cons, ih]
      tauto

theorem mem_sortDescProb {u : JointProb} {ts : List JointProb} :
    u ∈ sortDescProb ts ↔ u ∈ ts := by
  induction ts with
  | nil => simp [sortDescProb]
  | cons v vs ih =>
    simp only [sortDescProb, List.foldr_cons] at ih ⊢
    rw [mem_insertDesc, ih, List.mem_cons]

theorem allMendilian_implies_denovo_survivors (p : JointProb)
    (ds : List CalledDenovoT) (hall : allMendilianErrors p ds = true) :
    ∀ d ∈ removeUngenotypedDenovos ds (toCall p),
      containsHelperGen (toCall p).child d.allele = true ∧
        containsHelperGen (toCall p).mother d.allele = false ∧
        containsHelperGen (toCall p).father d.allele = false := by
  intro d hd
  unfold removeUngenotypedDenovos at hd
  have hds : d ∈ ds := List.mem_of_mem_filter hd
  have hok : isDenovo d.allele p = true := by
    simp only [allMendilianErrors, List.all_eq_true] at hall
    exact hall d hds
  rcases (isDenovo_iff d.allele p).mp hok with ⟨h1, h2, h3⟩
  exact ⟨h1, h2, h3⟩

/-- C3 (amended): the trio caller's selected joint call is one of the joint
posteriors; every de-novo call surviving `remove_ungenotyped_allele` has its
allele included in some genotype of the selected trio; and whenever the
selected triple passes the de-novo half of the viability check
(`all_mendilian_errors`) — in particular whenever the MAP triple is viable
or a viable triple is re-selected — every surviving de-novo call's allele is
contained in the child's called genotype and absent from both parents'.  In
the fallback where no viable triple exists the parental-absence guarantee
does not hold (see the counterexample). -/
theorem trio_denovo_calls_viable_amended (ts : List JointProb)
    (gs : List CalledGermline) (ds : List CalledDenovoT) (tc : TrioCallT)
    (h : callTrio ts gs ds = some tc) :
    ∃ p, p ∈ ts ∧ tc = toCall p ∧
      (∀ d ∈ removeUngenotypedDenovos ds tc, includesTrio tc d.allele = true) ∧
      (allMendilianErrors p ds = true →
        ∀ d ∈ removeUngenotypedDenovos ds tc,
          containsHelperGen tc.child d.allele = true ∧
            containsHelperGen tc.mother d.allele = false ∧
            containsHelperGen tc.father d.allele = false) := by
  have hkeep : ∀ tcall : TrioCallT,
      ∀ d ∈ removeUngenotypedDenovos ds tcall, includesTrio tcall d.allele = true := by
    intro tcall d hd
    unfold removeUngenotypedDenovos at hd
    have hp := List.of_mem_filter hd
    exact hp
  cases ts with
  | nil => simp [callTrio] at h
  | cons t rest =>
    simp only [callTrio] at h
    split at h
    · rcases Option.some.inj h with rfl
      exact ⟨maxElement t rest, maxElement_mem t rest, rfl, hkeep _,
        fun hall => allMendilian_implies_denovo_survivors _ ds hall⟩
    · split at h
      · next p hp =>
        rcases Option.some.inj h with rfl
        have hmem1 : p ∈ (sortDescProb (t :: rest)).drop 1 :=
          List.mem_of_find?_eq_some hp
        have hmem2 : p ∈ sortDescProb (t :: rest) :=
          List.mem_of_mem_drop hmem1
        exact ⟨p, mem_sortDescProb.mp hmem2, rfl, hkeep _,
          fun hall => allMendilian_implies_denovo_survivors _ ds hall⟩
      · next hp =>
        rcases Option.some.inj h with rfl
        exact ⟨maxElement t rest, maxElement_mem t rest, rfl, hkeep _,
          fun hall => allMendilian_implies_denovo_survivors _ ds hall⟩

/-- Witness for the amended C3 statement on a single-triple posterior. -/
theorem trio_denovo_calls_viable_amended_witness :
    ∃ p, p ∈ [jointC3b] ∧ toCall jointC3b = toCall p ∧
      (∀ d ∈ removeUngenotypedDenovos [] (toCall jointC3b),
        includesTrio (toCall jointC3b) d.allele = true) ∧
      (allMendilianErrors p [] = true →
        ∀ d ∈ removeUngenotypedDenovos [] (toCall jointC3b),
          containsHelperGen (toCall jointC3b).child d.allele = true ∧
            containsHelperGen (toCall jointC3b).mother d.allele = false ∧
            containsHelperGen (toCall jointC3b).father d.allele = false) :=
  trio_denovo_calls_viable_amended [jointC3b] [] [] (toCall jointC3b) (by decide)

/-- C3 counterexample: with these two joint posteriors no viable triple
exists, `call_trio` falls back to the MAP triple, and the de-novo call for
the allele survives `remove_ungenotyped_allele` even though the mother's
called genotype contains the allele — refuting the claim that every emitted
de-novo call's allele is absent from both parents' genotypes. -/
theorem trio_denovo_fallback_counterexample :
    callTrio [jointC3, jointC3b] [] [⟨alleleC3⟩] = some (toCall jointC3) ∧
      removeUngenotypedDenovos [⟨alleleC3⟩] (toCall jointC3) = [⟨alleleC3⟩] ∧
      containsHelperGen (toCall jointC3).mother alleleC3 = true ∧
      isDenovoCall alleleC3 (toCall jointC3) = false := by
  refine ⟨?_, by decide, by decide, by decide⟩
  norm_num [callTrio, maxElement, isViableGenotypeCall, noneMendilianErrors,
    allMendilianErrors, isDenovo, containsHelperGen, genotypeContains,
    genotypeIncludes, hapContains, hapIncludes, sortDescProb, insertDesc,
    toCall, jointC3, jointC3b, alleleC3]

/-! ## Theorems for C10 -/

theorem mem_emplaceG {y h : ℕ} {g : List ℕ} :
    y ∈ emplaceG g h ↔ y = h ∨ y ∈ g := by
  induction g with
  | nil => simp [emplaceG]
  | cons x xs ih =>
    simp only [emplaceG]
    split
    · simp
    · simp only [List.mem_cons, ih]
      tauto

theorem sorted_emplaceG {g : List ℕ} (h : ℕ) (hs : List.Sorted (· ≤ ·) g) :
    List.Sorted (· ≤ ·) (emplaceG g h) := by
  induction g with
  | nil => simp [emplaceG]
  | cons x xs ih =>
    rw [List.sorted_cons] at hs
    obtain ⟨hx, hxs⟩ := hs
    simp only [emplaceG]
    split
    · next hlt =>
      rw [List.sorted_cons]
      refine ⟨?_, List.sorted_cons.mpr ⟨hx, hxs⟩⟩
      intro b hb
      rcases List.mem_cons.mp hb with rfl | hbmem
      · omega
      · have := hx b hbmem
        omega
    · next hlt =>
      rw [List.sorted_cons]
      refine ⟨?_, ih hxs⟩
      intro b hb
      rcases mem_emplaceG.mp hb with rfl | hbmem
      · omega
      · exact hx b hbmem

theorem sorted_sortHaps (l : List ℕ) : List.Sorted (· ≤ ·) (sortHaps l) := by
  induction l with
  | nil => simp [sortHaps]
  | cons x xs ih =>
    simp only [sortHaps, List.foldr_cons] at ih ⊢
    exact sorted_emplaceG x ih

theorem containsG_iff_mem {g : List ℕ} (h : ℕ) (hs : List.Sorted (· ≤ ·) g) :
    containsG g h = true ↔ h ∈ g := by
  induction g with
  | nil => simp [containsG]
  | cons x xs ih =>
    rw [List.sorted_cons] at hs
    obtain ⟨hx, hxs⟩ := hs
    simp only [containsG]
    by_cases hlt : x < h
    · rw [if_pos hlt, ih hxs, List.mem_cons]
      constructor
      · exact Or.inr
      · rintro (rfl | hmem)
        · omega
        · exact hmem
    · rw [if_neg hlt]
      simp only [decide_eq_true_eq, List.mem_cons]
      constructor
      · intro hnlt
        left
        omega
      · rintro (rfl | hmem)
        · omega
        · have := hx h hmem
          omega

theorem takeWhile_length_eq_count {h : ℕ} {xs : List ℕ}
    (hs : List.Sorted (· ≤ ·) xs) (hge : ∀ b ∈ xs, h ≤ b) :
    (xs.takeWhile fun x => !(decide (h < x))).length = xs.count h := by
  induction xs with
  | nil => simp
  | cons y ys ih =>
    rw [List.sorted_cons] at hs
    obtain ⟨hy, hys⟩ := hs
    have hhy : h ≤ y := hge y (List.mem_cons_self _ _)
    by_cases hlt : h < y
    · have hcond : (!(decide (h < y))) = false := by simp [hlt]
      rw [List.takeWhile_cons, hcond]
      have hzero : ys.count h = 0 := by
        rw [List.count_eq_zero]
        intro hmem
        have := hy h hmem
        omega
      have hne : y ≠ h := by omega
      simp [List.count_cons, hne, hzero]
    · have hyh : y = h := by omega
      have hcond : (!(decide (h < y))) = true := by simp [hlt]
      rw [List.takeWhile_cons, hcond]
      have hrec := ih hys (fun b hb => le_trans hhy (hy b hb))
      simp [List.count_cons, hrec, hyh]

theorem countG_eq_count {g : List ℕ} (h : ℕ) (hs : List.Sorted (· ≤ ·) g) :
    countG g h = g.count h := by
  induction g with
  | nil => simp [countG]
  | cons x xs ih =>
    rw [List.sorted_cons] at hs
    obtain ⟨hx, hxs⟩ := hs
    by_cases hlt : x < h
    · have hstep : countG (x :: xs) h = countG xs h := by
        simp [countG, List.dropWhile_cons, hlt]
      have hne : x ≠ h := by omega
      rw [hstep, ih hxs]
      simp [List.count_cons, hne]
    · have hdrop : ((x :: xs).dropWhile fun y => decide (y < h)) = x :: xs := by
        simp [List.dropWhile_cons, hlt]
      rw [countG, hdrop]
      exact takeWhile_length_eq_count (List.sorted_cons.mpr ⟨hx, hxs⟩)
        (by
          intro b hb
          rcases List.mem_cons.mp hb with rfl | hmem
          · omega
          · have := hx b hmem
            omega)

theorem zygosityG_eq_zero_iff {l : List ℕ} : zygosityG l = 0 ↔ l = [] := by
  cases l with
  | nil => simp [zygosityG]
  | cons x xs => simp [zygosityG]

theorem getLastD_all_eq {x : ℕ} {xs : List ℕ} (hall : ∀ b ∈ xs, b = x) :
    xs.getLastD x = x := by
  induction xs generalizing x with
  | nil => rfl
  | cons y ys ih =>
    have hy : y = x := hall y (List.mem_cons_self _ _)
    subst hy
    rw [List.getLastD_cons]
    exact ih fun b hb => hall b (List.mem_cons_of_mem _ hb)

theorem sorted_getLastD_iff {x : ℕ} {xs : List ℕ}
    (hs : List.Sorted (· ≤ ·) (x :: xs)) :
    xs.getLastD x = x ↔ ∀ b ∈ xs, b = x := by
  induction xs generalizing x with
  | nil => simp
  | cons y ys ih =>
    rw [List.sorted_cons] at hs
    obtain ⟨hx, hxs⟩ := hs
    have hxy : x ≤ y := hx y (List.mem_cons_self _ _)
    rw [List.getLastD_cons]
    constructor
    · intro hlast
      have hyx : y = x := by
        have hmem := List.getLastD_mem_cons ys y
        rcases List.mem_cons.mp hmem with heq | hmem2
        · omega
        · have h1 := List.sorted_cons.mp hxs
          have := h1.1 _ hmem2
          omega
      subst hyx
      have hall := (ih hxs).mp hlast
      intro b hb
      rcases List.mem_cons.mp hb with rfl | hbm
      · rfl
      · exact hall b hbm
    · intro hall
      have hyx : y = x := hall y (List.mem_cons_self _ _)
      subst hyx
      exact (ih hxs).mpr fun b hb => hall b (List.mem_cons_of_mem _ hb)

theorem homozygous_iff_zygosity_one {g : List ℕ}
    (hs : List.Sorted (· ≤ ·) g) (hne : g ≠ []) :
    isHomozygousG g = true ↔ zygosityG g = 1 := by
  cases g with
  | nil => exact absurd rfl hne
  | cons x xs =>
    rw [List.sorted_cons] at hs
    obtain ⟨hx, hxs⟩ := hs
    have hzy : zygosityG (x :: xs) = 1 + zygosityG (xs.dropWhile fun y => y == x) := by
      simp [zygosityG]
    rw [hzy]
    have hiso : isHomozygousG (x :: xs) = (x == xs.getLastD x) := rfl
    rw [hiso]
    constructor
    · intro hh
      have hlast : xs.getLastD x = x := (eq_of_beq hh).symm
      have hall : ∀ b ∈ xs, b = x :=
        (sorted_getLastD_iff (List.sorted_cons.mpr ⟨hx, hxs⟩)).mp hlast
      have hdrop : (xs.dropWhile fun y => y == x) = [] := by
        rw [List.dropWhile_eq_nil_iff]
        intro b hb
        simp [hall b hb]
      rw [hdrop]
      simp [zygosityG]
    · intro hz
      have hdrop : (xs.dropWhile fun y => y == x) = [] := by
        have : zygosityG (xs.dropWhile fun y => y == x) = 0 := by omega
        exact zygosityG_eq_zero_iff.mp this
      rw [List.dropWhile_eq_nil_iff] at hdrop
      have hall : ∀ b ∈ xs, b = x := by
        intro b hb
        have := hdrop b hb
        exact eq_of_beq this
      have hlast := getLastD_all_eq hall
      rw [hlast]
      exact beq_self_eq_true x

/-- C10: on sorted contents — established by construction and preserved by
`emplace` — `contains` agrees with membership, `count` agrees with
multiplicity, and a non-empty genotype is homozygous iff its zygosity is
one; the sorting constructor always produces sorted contents and `emplace`
keeps them sorted. -/
theorem genotype_sorted_operations (g : List ℕ) (h : ℕ)
    (hs : List.Sorted (· ≤ ·) g) :
    List.Sorted (· ≤ ·) (emplaceG g h) ∧
      (∀ l : List ℕ, List.Sorted (· ≤ ·) (sortHaps l)) ∧
      (containsG g h = true ↔ h ∈ g) ∧
      countG g h = g.count h ∧
      (g ≠ [] → (isHomozygousG g = true ↔ zygosityG g = 1)) :=
  ⟨sorted_emplaceG h hs, sorted_sortHaps, containsG_iff_mem h hs,
    countG_eq_count h hs, fun hne => homozygous_iff_zygosity_one hs hne⟩

/-- Witness for C10 at the sorted genotype `[1, 2, 2]` with value 2. -/
theorem genotype_sorted_operations_witness :
    List.Sorted (· ≤ ·) (emplaceG [1, 2, 2] 2) ∧
      (∀ l : List ℕ, List.Sorted (· ≤ ·) (sortHaps l)) ∧
      (containsG [1, 2, 2] 2 = true ↔ 2 ∈ [1, 2, 2]) ∧
      countG [1, 2, 2] 2 = List.count 2 [1, 2, 2] ∧
      ([1, 2, 2] ≠ [] → (isHomozygousG [1, 2, 2] = true ↔ zygosityG [1, 2, 2] = 1)) :=
  genotype_sorted_operations [1, 2, 2] 2 (by decide)

/-! ## Theorems for C1 -/

/-- C1 counterexample: an SNV observed by exactly two reads of base quality
10 at depth 8.  The claimed rule admits it (depth ≤ 10 with two supporting
reads), but `is_good_germline` filters the qualities below 20 first and
rejects it — so low-depth emission is not quality-blind, refuting the claim
as stated. -/
theorem snv_inclusion_claim_counterexample :
    claimedSnvRule 8 [10, 10] = true ∧
      isGoodGermline snvEx 8 4 1 [10, 10] = false := by
  decide

/-- C1 (amended): for an SNV observation at depth ≥ 4 that passes the
strand-bias screen and the runthrough-artifact screen, the candidate is
emitted iff at least two supporting reads have base quality ≥ 20 when
depth ≤ 10, and otherwise at least three supporting reads have base
quality ≥ 20 and the quality-filtered support over depth exceeds 0.1. -/
theorem isGoodGermline_snv_amended (v : VariantM)
    (depth forwardStrandDepth forwardStrandSupport : ℕ) (qs : List ℕ)
    (hsnv : isSnvV v = true) (hdepth : 4 ≤ depth)
    (hbias : (decide (20 < qs.length) &&
        decide (1 < min forwardStrandDepth (depth - forwardStrandDepth)) &&
        isCompletelyStrandBiased forwardStrandSupport
          (qs.length - forwardStrandSupport)) = false)
    (hart : isLikelyRunthroughArtifact forwardStrandSupport
        (qs.length - forwardStrandSupport) qs = false) :
    isGoodGermline v depth forwardStrandDepth forwardStrandSupport qs = true ↔
      (if depth ≤ 10 then 2 ≤ (eraseBelow qs 20).length
       else 3 ≤ (eraseBelow qs 20).length ∧
         (1 : ℚ) / 10 < ((eraseBelow qs 20).length : ℚ) / (depth : ℚ)) := by
  have hnotlt : ¬ depth < 4 := by omega
  simp only [isGoodGermline]
  rw [if_neg hnotlt, hbias]
  simp only [Bool.false_eq_true, if_false, hsnv, if_pos, hart]
  by_cases hd : depth ≤ 10
  · rw [if_pos hd, if_pos hd]
    simp only [decide_eq_true_eq]
    constructor
    · intro hlen
      omega
    · intro hlen
      omega
  · rw [if_neg hd, if_neg hd]
    simp only [Bool.and_eq_true, decide_eq_true_eq]
    constructor
    · rintro ⟨h1, h2⟩
      exact ⟨by omega, h2⟩
    · rintro ⟨h1, h2⟩
      exact ⟨by omega, h2⟩

/-- Witness for the amended C1 rule: an SNV at depth 12 with supporting
base qualities 30, 30, 25, 9. -/
theorem isGoodGermline_snv_amended_witness :
    isGoodGermline snvEx 12 6 2 [30, 30, 25, 9] = true ↔
      (if (12 : ℕ) ≤ 10 then 2 ≤ (eraseBelow [30, 30, 25, 9] 20).length
       else 3 ≤ (eraseBelow [30, 30, 25, 9] 20).length ∧
         (1 : ℚ) / 10 < ((eraseBelow [30, 30, 25, 9] 20).length : ℚ) / ((12 : ℕ) : ℚ)) :=
  isGoodGermline_snv_amended snvEx 12 6 2 [30, 30, 25, 9]
    (by decide) (by decide) (by decide) (by decide)

/-! ## Theorems for C4 -/

/-- C4 counterexample: two insertions of the same length and N-count but at
different regions.  The source's match predicate accepts them without any
region comparison, while the claimed rule requires the same region. -/
theorem defaultMatch_claim_counterexample :
    defaultMatch insEx1 insEx2 = true ∧
      claimedMatchPredicate insEx1 insEx2 = false ∧
      insEx1.region ≠ insEx2.region := by
  decide

/-- C4 (amended): the match predicate accepts a pair iff either the pair is
a type mismatch or an SNV/MNV on the left and the variants are exactly
equal; or both are insertions of equal alt length whose alt sequences have
the same N-count — no same-region requirement; or (same type, left not
SNV/MNV, and not an equal-length insertion pair) the regions overlap, which
covers the deletion case. -/
theorem defaultMatch_amended_characterization (lhs rhs : VariantM) :
    defaultMatch lhs rhs = true ↔
      (((areSameType lhs rhs = false ∨ isSnvV lhs = true ∨ isMnvV lhs = true) ∧
          lhs = rhs) ∨
        (areSameType lhs rhs = true ∧ isSnvV lhs = false ∧ isMnvV lhs = false ∧
          isInsertionV lhs = true ∧ altSequenceSize lhs = altSequenceSize rhs ∧
          lhs.altSeq.count 'N' = rhs.altSeq.count 'N') ∨
        (areSameType lhs rhs = true ∧ isSnvV lhs = false ∧ isMnvV lhs = false ∧
          (isInsertionV lhs = false ∨ altSequenceSize lhs ≠ altSequenceSize rhs) ∧
          overlapsV lhs rhs = true)) := by
  by_cases hs : areSameType lhs rhs = true <;>
    by_cases hsnv : isSnvV lhs = true <;>
      by_cases hmnv : isMnvV lhs = true <;>
        by_cases hins : isInsertionV lhs = true <;>
          by_cases hsize : altSequenceSize lhs = altSequenceSize rhs <;>
            simp [defaultMatch, hs, hsnv, hmnv, hins, hsize, beq_iff_eq,
              Bool.not_eq_true] at *

/-! ## Theorems for C7 -/

theorem length_maskFrom (f : ℕ → Bool) (j : ℕ) (qs : List ℕ) :
    (maskFrom f j qs).length = qs.length := by
  induction qs generalizing j with
  | nil => rfl
  | cons q qs ih => simp [maskFrom, ih]

theorem maskFrom_congr {f g : ℕ → Bool} (h : ∀ i, f i = g i) (j : ℕ) (qs : List ℕ) :
    maskFrom f j qs = maskFrom g j qs := by
  induction qs generalizing j with
  | nil => rfl
  | cons q qs ih => simp [maskFrom, h j, ih]

theorem maskFrom_maskFrom (f g : ℕ → Bool) (j : ℕ) (qs : List ℕ) :
    maskFrom f j (maskFrom g j qs) = maskFrom (fun i => f i || g i) j qs := by
  induction qs generalizing j with
  | nil => rfl
  | cons q qs ih =>
    simp only [maskFrom, ih]
    congr 1
    by_cases hf : f j = true <;> by_cases hg : g j = true <;> simp [hf, hg]

theorem maskFrom_eq_self {f : ℕ → Bool} (j : ℕ) (qs : List ℕ)
    (h : ∀ i, i < qs.length → f (j + i) = false) : maskFrom f j qs = qs := by
  induction qs generalizing j with
  | nil => rfl
  | cons q qs ih =>
    have h0 : f j = false := by simpa using h 0 (by simp)
    simp only [maskFrom, h0, if_neg]
    refine congrArg (List.cons q) (ih (j + 1) ?_)
    intro i hi
    have := h (i + 1) (by simpa using Nat.succ_lt_succ hi)
    simpa [Nat.add_assoc, Nat.add_comm 1 i] using this

theorem zeroFront_zero (qs : List ℕ) : zeroFront 0 qs = qs :=
  maskFrom_eq_self 0 qs fun i _ => by simp

theorem zeroBack_zero (qs : List ℕ) : zeroBack 0 qs = qs :=
  maskFrom_eq_self 0 qs fun i hi => by
    simp only [Nat.sub_zero, Nat.zero_add, decide_eq_false_iff_not]
    omega

theorem getD_maskFrom (f : ℕ → Bool) (qs : List ℕ) (j i : ℕ) :
    (maskFrom f j qs).getD i 0 =
      if i < qs.length ∧ f (j + i) = true then 0 else qs.getD i 0 := by
  induction qs generalizing j i with
  | nil => simp [maskFrom]
  | cons q qs ih =>
    cases i with
    | zero => cases hf : f j <;> simp [maskFrom, hf]
    | succ i =>
      simp only [maskFrom, List.getD_cons_succ]
      rw [ih (j + 1) i]
      have harith : j + 1 + i = j + (i + 1) := by omega
      rw [harith]
      simp [Nat.succ_lt_succ_iff]

theorem getD_maskFrom_or (f : ℕ → Bool) (qs : List ℕ) (j i : ℕ) :
    (maskFrom f j qs).getD i 0 = qs.getD i 0 ∨ (maskFrom f j qs).getD i 0 = 0 := by
  rw [getD_maskFrom]
  split
  · right
    rfl
  · left
    rfl

theorem applyTransform_eq (t : TransformM) (r : ReadM) :
    applyTransform t r =
      { r with qualities := zeroBack (bFun t r) (zeroFront (aFun t r) r.qualities) } := by
  cases t with
  | overlappedSegment =>
    simp only [applyTransform]
    by_cases h1 : (r.isChimeric && !r.isReverse) = true
    · rw [if_pos h1]
      by_cases h2 : r.nextSegmentBegin < r.mappedEnd
      · rw [if_pos h2]
        have hb : bFun TransformM.overlappedSegment r
            = r.mappedEnd - r.nextSegmentBegin := by
          simp [bFun, h1, h2]
        rw [show aFun TransformM.overlappedSegment r = 0 from rfl, hb, zeroFront_zero]
      · rw [if_neg h2]
        have hb : bFun TransformM.overlappedSegment r = 0 := by
          simp [bFun, h2]
        rw [show aFun TransformM.overlappedSegment r = 0 from rfl, hb,
          zeroFront_zero, zeroBack_zero]
    · rw [if_neg h1]
      have hb : bFun TransformM.overlappedSegment r = 0 := by
        simp only [bFun]
        rw [if_neg]
        intro hcontra
        rw [Bool.and_eq_true, Bool.and_eq_true] at hcontra
        exact h1 (Bool.and_eq_true _ _ |>.mpr ⟨hcontra.1.1, hcontra.1.2⟩)
      rw [show aFun TransformM.overlappedSegment r = 0 from rfl, hb,
        zeroFront_zero, zeroBack_zero]
  | adapters =>
    simp only [applyTransform]
    by_cases h1 : r.isChimeric = true
    · rw [if_pos h1]
      by_cases h2 : r.inferredTemplateLength ≤ r.qualities.length
      · rw [if_pos h2]
        by_cases h3 : r.isReverse = true
        · rw [if_pos h3]
          have ha : aFun TransformM.adapters r = 0 := by simp [aFun, h3]
          have hb : bFun TransformM.adapters r
              = r.qualities.length - r.inferredTemplateLength := by
            simp [bFun, h1, h2, h3]
          rw [ha, hb, zeroFront_zero]
        · rw [if_neg h3]
          have ha : aFun TransformM.adapters r
              = r.qualities.length - r.inferredTemplateLength := by
            simp [aFun, h1, h2, h3]
          have hb : bFun TransformM.adapters r = 0 := by simp [bFun, h3]
          rw [ha, hb, zeroBack_zero]
      · rw [if_neg h2]
        have ha : aFun TransformM.adapters r = 0 := by simp [aFun, h2]
        have hb : bFun TransformM.adapters r = 0 := by simp [bFun, h2]
        rw [ha, hb, zeroFront_zero, zeroBack_zero]
    · rw [if_neg h1]
      have h1f : r.isChimeric = false := by
        revert h1
        cases r.isChimeric <;> simp
      have ha : aFun TransformM.adapters r = 0 := by simp [aFun, h1f]
      have hb : bFun TransformM.adapters r = 0 := by simp [bFun, h1f]
      rw [ha, hb, zeroFront_zero, zeroBack_zero]
  | tail n =>
    simp only [applyTransform]
    by_cases h : r.isReverse = true
    · rw [if_pos h]
      have ha : aFun (TransformM.tail n) r = n := by simp [aFun, h]
      have hb : bFun (TransformM.tail n) r = 0 := by simp [bFun, h]
      rw [ha, hb, zeroBack_zero]
    · rw [if_neg h]
      have h1f : r.isReverse = false := by
        revert h
        cases r.isReverse <;> simp
      have ha : aFun (TransformM.tail n) r = 0 := by simp [aFun, h1f]
      have hb : bFun (TransformM.tail n) r = n := by simp [bFun, h1f]
      rw [ha, hb, zeroFront_zero]
  | softClipped =>
    simp only [applyTransform]
    by_cases h : isSoftClippedR r = true
    · rw [if_pos h]
      have ha : aFun TransformM.softClipped r = r.clipFront := by simp [aFun, h]
      have hb : bFun TransformM.softClipped r = r.clipBack := by simp [bFun, h]
      rw [ha, hb]
    · rw [if_neg h]
      have ha : aFun TransformM.softClipped r = 0 := by simp [aFun, h]
      have hb : bFun TransformM.softClipped r = 0 := by simp [bFun, h]
      rw [ha, hb, zeroFront_zero, zeroBack_zero]
  | softClippedBoundaries n =>
    simp only [applyTransform]
    by_cases h : isSoftClippedR r = true
    · rw [if_pos h]
      by_cases hf : 0 < r.clipFront <;> by_cases hback : 0 < r.clipBack
      · have ha : aFun (TransformM.softClippedBoundaries n) r = r.clipFront + n := by
          simp [aFun, h, hf]
        have hb : bFun (TransformM.softClippedBoundaries n) r = r.clipBack + n := by
          simp [bFun, h, hback]
        rw [ha, hb]
        simp only [if_pos hf, if_pos hback]
      · have ha : aFun (TransformM.softClippedBoundaries n) r = r.clipFront + n := by
          simp [aFun, h, hf]
        have hb : bFun (TransformM.softClippedBoundaries n) r = 0 := by
          simp [bFun, hback]
        rw [ha, hb, zeroBack_zero]
        simp only [if_pos hf, if_neg hback]
      · have ha : aFun (TransformM.softClippedBoundaries n) r = 0 := by
          simp [aFun, hf]
        have hb : bFun (TransformM.softClippedBoundaries n) r = r.clipBack + n := by
          simp [bFun, h, hback]
        rw [ha, hb, zeroFront_zero]
        simp only [if_neg hf, if_pos hback]
      · have ha : aFun (TransformM.softClippedBoundaries n) r = 0 := by
          simp [aFun, hf]
        have hb : bFun (TransformM.softClippedBoundaries n) r = 0 := by
          simp [bFun, hback]
        rw [ha, hb, zeroFront_zero, zeroBack_zero]
        simp only [if_neg hf, if_neg hback]
    · rw [if_neg h]
      have ha : aFun (TransformM.softClippedBoundaries n) r = 0 := by simp [aFun, h]
      have hb : bFun (TransformM.softClippedBoundaries n) r = 0 := by simp [bFun, h]
      rw [ha, hb, zeroFront_zero, zeroBack_zero]

theorem aFun_update (t : TransformM) (r : ReadM) (qs : List ℕ)
    (h : qs.length = r.qualities.length) :
    aFun t { r with qualities := qs } = aFun t r := by
  cases t <;> simp [aFun, isSoftClippedR, h]

theorem bFun_update (t : TransformM) (r : ReadM) (qs : List ℕ)
    (h : qs.length = r.qualities.length) :
    bFun t { r with qualities := qs } = bFun t r := by
  cases t <;> simp [bFun, isSoftClippedR, h]

theorem zero_mask_comm (a1 b1 a2 b2 : ℕ) (qs : List ℕ) :
    zeroBack b1 (zeroFront a1 (zeroBack b2 (zeroFront a2 qs))) =
      zeroBack b2 (zeroFront a2 (zeroBack b1 (zeroFront a1 qs))) := by
  simp only [zeroFront, zeroBack, length_maskFrom, maskFrom_maskFrom]
  apply maskFrom_congr
  intro i
  cases h1 : decide (i < a1) <;> cases h2 : decide (i < a2) <;>
    cases h3 : decide (qs.length - b1 ≤ i) <;> cases h4 : decide (qs.length - b2 ≤ i) <;>
      simp [h1, h2, h3, h4]

theorem length_applyTransform (t : TransformM) (r : ReadM) :
    (applyTransform t r).qualities.length = r.qualities.length := by
  rw [applyTransform_eq]
  simp [zeroFront, zeroBack, length_maskFrom]

/-- C7: every read transform only zeroes base qualities — each position is
either unchanged or set to zero, the length is unchanged, and no quality is
ever increased — and consequently any two transforms applied in either
order produce the same read. -/
theorem read_transforms_zero_only_and_commute (t1 t2 : TransformM) (r : ReadM) :
    ((applyTransform t1 r).qualities.length = r.qualities.length ∧
      ∀ i, (applyTransform t1 r).qualities.getD i 0 = r.qualities.getD i 0 ∨
        (applyTransform t1 r).qualities.getD i 0 = 0) ∧
    applyTransform t1 (applyTransform t2 r) = applyTransform t2 (applyTransform t1 r) := by
  refine ⟨⟨length_applyTransform t1 r, ?_⟩, ?_⟩
  · intro i
    rw [applyTransform_eq]
    simp only [zeroFront, zeroBack, length_maskFrom]
    rcases getD_maskFrom_or (fun k => decide (r.qualities.length - bFun t1 r ≤ k))
        (maskFrom (fun l => decide (l < aFun t1 r)) 0 r.qualities) 0 i with h | h
    · rw [h]
      exact getD_maskFrom_or _ r.qualities 0 i
    · right
      exact h
  · have h2len : (applyTransform t2 r).qualities.length = r.qualities.length :=
      length_applyTransform t2 r
    have h1len : (applyTransform t1 r).qualities.length = r.qualities.length :=
      length_applyTransform t1 r
    conv_lhs => rw [applyTransform_eq t1, applyTransform_eq t2]
    conv_rhs => rw [applyTransform_eq t2, applyTransform_eq t1]
    rw [applyTransform_eq] at h1len h2len
    rw [aFun_update t1 r _ h2len, bFun_update t1 r _ h2len,
      aFun_update t2 r _ h1len, bFun_update t2 r _ h1len]
    simp only []
    congr 1
    exact zero_mask_comm (aFun t1 r) (bFun t1 r) (aFun t2 r) (bFun t2 r) r.qualities

/-! ## Theorems for C8 -/

/-- C8: evaluating the source's contig-ploidy processing at the failing
input `chr1=2 chr1=3` (contigs abstracted to numbers): the same contig with
two distinct ploidies makes `extract_contig_ploidies` yield `none` — after
which `make_variant_caller_factory` raises no usage error (its emptiness
check is an empty TODO) and dereferences the empty optional; exact
duplicates and distinct contigs pass through. -/
theorem contigPloidies_ambiguity_detection :
    extractContigPloidies [⟨1, 2⟩, ⟨1, 3⟩] = none ∧
      extractContigPloidies [⟨1, 2⟩, ⟨1, 2⟩] = some [⟨1, 2⟩] ∧
      extractContigPloidies [⟨1, 2⟩, ⟨2, 3⟩] = some [⟨1, 2⟩, ⟨2, 3⟩] := by
  decide

/-! ## Theorems for C9 -/

theorem mapErase_sublist (sz : ℕ → ℕ) (p : ℕ) (l : List ℕ) :
    List.Sublist (mapErase sz p l) l := by
  induction l with
  | nil => simp [mapErase]
  | cons q qs ih =>
    simp only [mapErase]
    split
    · exact List.sublist_cons_self q qs
    · exact ih.cons₂ q

theorem closeReader_inv (sz : ℕ → ℕ) (maxOpen : ℕ) (p : ℕ) {s : RMState}
    (h : poolInv sz maxOpen s) : poolInv sz maxOpen (closeReader sz p s) := by
  obtain ⟨hsort, hlen⟩ := h
  exact ⟨List.Pairwise.sublist (mapErase_sublist sz p s.openReaders) hsort,
    le_trans (mapErase_sublist sz p s.openReaders).length_le hlen⟩

theorem length_mapEmplace_le (sz : ℕ → ℕ) (p : ℕ) (l : List ℕ) :
    (mapEmplace sz p l).length ≤ l.length + 1 := by
  induction l with
  | nil => simp [mapEmplace]
  | cons q qs ih =>
    simp only [mapEmplace]
    split
    · simp
    · split
      · simp
      · simpa using Nat.succ_le_succ ih

theorem mem_mapEmplace {sz : ℕ → ℕ} {p : ℕ} {l : List ℕ} {x : ℕ}
    (h : x ∈ mapEmplace sz p l) : x = p ∨ x ∈ l := by
  induction l with
  | nil => simpa [mapEmplace] using h
  | cons q qs ih =>
    simp only [mapEmplace] at h
    split at h
    · rcases List.mem_cons.mp h with rfl | h2
      · left
        rfl
      · right
        exact h2
    · split at h
      · right
        exact h
      · rcases List.mem_cons.mp h with rfl | h2
        · right
          exact List.mem_cons_self _ _
        · rcases ih h2 with rfl | hm
          · left
            rfl
          · right
            exact List.mem_cons_of_mem _ hm

theorem pairwise_mapEmplace (sz : ℕ → ℕ) (p : ℕ) {l : List ℕ}
    (h : List.Pairwise (fun a b => sz a < sz b) l) :
    List.Pairwise (fun a b => sz a < sz b) (mapEmplace sz p l) := by
  induction l with
  | nil => simp [mapEmplace]
  | cons q qs ih =>
    rw [List.pairwise_cons] at h
    obtain ⟨hq, hqs⟩ := h
    simp only [mapEmplace]
    split
    · next hlt =>
      rw [List.pairwise_cons]
      refine ⟨?_, List.pairwise_cons.mpr ⟨hq, hqs⟩⟩
      intro b hb
      rcases List.mem_cons.mp hb with rfl | hbm
      · exact hlt
      · exact lt_trans hlt (hq b hbm)
    · split
      · exact List.pairwise_cons.mpr ⟨hq, hqs⟩
      · next hnlt hne =>
        rw [List.pairwise_cons]
        refine ⟨?_, ih hqs⟩
        intro b hb
        rcases mem_mapEmplace hb with rfl | hbm
        · have hne2 : sz q ≠ sz b := by simpa using hne
          omega
        · exact hq b hbm

theorem openReaderOp_inv (sz : ℕ → ℕ) (maxOpen : ℕ) (hmax : 1 ≤ maxOpen) (p : ℕ)
    {s : RMState} (h : poolInv sz maxOpen s) :
    poolInv sz maxOpen (openReaderOp sz maxOpen p s) := by
  obtain ⟨hsort, hlen⟩ := h
  simp only [openReaderOp]
  by_cases hfull : s.openReaders.length = maxOpen
  · rw [if_pos hfull]
    cases hopen : s.openReaders with
    | nil =>
      rw [hopen] at hfull
      simp only [List.length_nil] at hfull
      omega
    | cons q t =>
      simp only [chooseReaderToClose, hopen, List.head?_cons]
      have herase : mapErase sz q s.openReaders = t := by
        rw [hopen]
        simp [mapErase]
      rw [hopen] at hsort
      rw [List.pairwise_cons] at hsort
      constructor
      · exact pairwise_mapEmplace sz p
          (by simpa [closeReader, herase] using hsort.2)
      · have hle := length_mapEmplace_le sz p (closeReader sz q s).openReaders
        simp only [closeReader, herase] at hle ⊢
        rw [hopen] at hfull
        simp only [List.length_cons] at hfull
        omega
  · rw [if_neg hfull]
    constructor
    · exact pairwise_mapEmplace sz p hsort
    · have hle := length_mapEmplace_le sz p s.openReaders
      show (mapEmplace sz p s.openReaders).length ≤ maxOpen
      omega

theorem closeReadersOp_inv (sz : ℕ → ℕ) (maxOpen : ℕ) (n : ℕ) {s : RMState}
    (h : poolInv sz maxOpen s) : poolInv sz maxOpen (closeReadersOp sz n s) := by
  induction n generalizing s with
  | zero => exact h
  | succ n ih =>
    simp only [closeReadersOp]
    cases hopen : chooseReaderToClose s with
    | none => exact h
    | some q => exact ih (closeReader_inv sz maxOpen q h)

theorem foldl_openReaderOp_inv (sz : ℕ → ℕ) (maxOpen : ℕ) (hmax : 1 ≤ maxOpen)
    (paths : List ℕ) {s : RMState} (h : poolInv sz maxOpen s) :
    poolInv sz maxOpen (paths.foldl (fun st q => openReaderOp sz maxOpen q st) s) := by
  induction paths generalizing s with
  | nil => exact h
  | cons q qs ih => exact ih (openReaderOp_inv sz maxOpen hmax q h)

theorem openReadersRange_inv (sz : ℕ → ℕ) (maxOpen : ℕ) (hmax : 1 ≤ maxOpen)
    (paths : List ℕ) {s : RMState} (h : poolInv sz maxOpen s) :
    poolInv sz maxOpen (openReadersRange sz maxOpen paths s) := by
  simp only [openReadersRange]
  split
  · exact h
  · split
    · exact foldl_openReaderOp_inv sz maxOpen hmax paths h
    · exact foldl_openReaderOp_inv sz maxOpen hmax _
        (closeReadersOp_inv sz maxOpen _ h)

theorem runPool_inv (sz : ℕ → ℕ) (maxOpen : ℕ) (hmax : 1 ≤ maxOpen)
    (ops : List PoolOp) {s : RMState} (h : poolInv sz maxOpen s) :
    poolInv sz maxOpen (runPool sz maxOpen ops s) := by
  induction ops generalizing s with
  | nil => exact h
  | cons op ops ih =>
    cases op with
    | openOne p => exact ih (openReaderOp_inv sz maxOpen hmax p h)
    | openMany ps => exact ih (openReadersRange_inv sz maxOpen hmax ps h)
    | closeOne p => exact ih (closeReader_inv sz maxOpen p h)

/-- C9: in a valid pool state (sorted-by-size open map, at most
`max_open_read_files` open) the reader chosen for eviction has the smallest
file size among the open readers, and after any sequence of open/close
operations the number of open readers still does not exceed the bound. -/
theorem readManager_eviction_and_bound (sz : ℕ → ℕ) (maxOpen : ℕ)
    (hmax : 1 ≤ maxOpen) (s : RMState) (hinv : poolInv sz maxOpen s) :
    (∀ p, chooseReaderToClose s = some p → ∀ q ∈ s.openReaders, sz p ≤ sz q) ∧
      ∀ ops : List PoolOp, (runPool sz maxOpen ops s).openReaders.length ≤ maxOpen := by
  obtain ⟨hsort, hlen⟩ := hinv
  constructor
  · intro p hp q hq
    cases hopen : s.openReaders with
    | nil =>
      rw [chooseReaderToClose, hopen] at hp
      simp at hp
    | cons x t =>
      rw [chooseReaderToClose, hopen] at hp
      simp only [List.head?_cons, Option.some.injEq] at hp
      subst hp
      rw [hopen] at hq hsort
      rw [List.pairwise_cons] at hsort
      rcases List.mem_cons.mp hq with rfl | hqt
      · exact le_refl _
      · exact le_of_lt (hsort.1 q hqt)
  · intro ops
    exact (runPool_inv sz maxOpen hmax ops ⟨hsort, hlen⟩).2

/-- Witness for C9 on a full two-reader pool with identity sizes. -/
theorem readManager_eviction_and_bound_witness :
    (∀ p, chooseReaderToClose ⟨[1, 2], []⟩ = some p →
      ∀ q ∈ (⟨[1, 2], []⟩ : RMState).openReaders, (fun x => x) p ≤ (fun x => x) q) ∧
      ∀ ops : List PoolOp,
        (runPool (fun x => x) 2 ops ⟨[1, 2], []⟩).openReaders.length ≤ 2 :=
  readManager_eviction_and_bound (fun x => x) 2 (by decide) ⟨[1, 2], []⟩
    ⟨by decide, by decide⟩

/-! ## Theorems for C5 -/

/-- C5 counterexample: a read of mapping quality 20 spanning 100 bases with
accumulated penalty 1/2 and mutation rate 1/1000.  The source returns 0
because the floored penalty is zero, while the claimed formula evaluates to
a strictly negative number — so the function does not compute the claimed
formula for every read. -/
theorem lnProbability_claim_counterexample :
    lnProbabilityReadCorrectlyAligned (1 / 2) ⟨20, 100⟩ (1 / 1000) = 0 ∧
      claimedLnProbability (1 / 2) ⟨20, 100⟩ (1 / 1000) < 0 := by
  have hk0 : ⌊(1 / 2 : ℝ)⌋₊ = 0 := by
    rw [Nat.floor_eq_zero]
    norm_num
  constructor
  · simp only [lnProbabilityReadCorrectlyAligned]
    rw [if_pos hk0]
  · simp only [claimedLnProbability, hk0]
    have h1 : Real.log (1 - (10 : ℝ) ^ (-((20 : ℕ) : ℝ) / 10)) < 0 := by
      have hlt : (10 : ℝ) ^ (-((20 : ℕ) : ℝ) / 10) < 1 :=
        Real.rpow_lt_one_of_one_lt_of_neg (by norm_num) (by norm_num)
      have hpos : (0 : ℝ) < (10 : ℝ) ^ (-((20 : ℕ) : ℝ) / 10) :=
        Real.rpow_pos_of_pos (by norm_num) _
      apply Real.log_neg <;> linarith
    have h2 : logPoissonSf 0 ((1 / 1000 : ℝ) * ((100 : ℕ) : ℝ)) < 0 := by
      unfold logPoissonSf poissonSf
      have hmu : (1 / 1000 : ℝ) * ((100 : ℕ) : ℝ) = 1 / 10 := by norm_num
      rw [hmu]
      have hsum : ∑ i ∈ Finset.range (0 + 1),
          Real.exp (-(1 / 10 : ℝ)) * (1 / 10 : ℝ) ^ i / (Nat.factorial i)
            = Real.exp (-(1 / 10 : ℝ)) := by
        simp [Finset.sum_range_one]
      rw [hsum]
      have hexplt : Real.exp (-(1 / 10 : ℝ)) < 1 := by
        rw [show (1 : ℝ) = Real.exp 0 from (Real.exp_zero).symm]
        rw [Real.exp_lt_exp]
        norm_num
      have hexppos : (0 : ℝ) < Real.exp (-(1 / 10 : ℝ)) := Real.exp_pos _
      apply Real.log_neg <;> linarith
    linarith

/-- C5 (amended): when the floored penalty is non-zero the source computes
exactly the claimed formula
`log(1 − 10^(−MQ/10)) + log Poisson_sf(⌊ℓ⌋; μ·|read|)` (when it is zero the
source returns 0 instead), and a read's candidates are routed to the
likely-misaligned bucket iff the computed value is below
`min_ln_prob_correctly_aligned`. -/
theorem lnProbability_formula_amended (penalty : ℝ) (read : ReadAln)
    (rate minLn : ℝ) (hk : ⌊penalty⌋₊ ≠ 0) :
    lnProbabilityReadCorrectlyAligned penalty read rate
        = claimedLnProbability penalty read rate ∧
      (addReadRoute ⟨rate, minLn⟩ read penalty = CandidateBucket.misaligned ↔
        lnProbabilityReadCorrectlyAligned penalty read rate < minLn) := by
  constructor
  · simp only [lnProbabilityReadCorrectlyAligned, claimedLnProbability]
    rw [if_neg hk]
    have hexp : Real.exp (-ln10Div10 * (read.mappingQuality : ℝ))
        = (10 : ℝ) ^ (-(read.mappingQuality : ℝ) / 10) := by
      rw [Real.rpow_def_of_pos (by norm_num)]
      congr 1
      unfold ln10Div10
      ring
    rw [hexp]
  · simp only [addReadRoute]
    by_cases h : isLikelyMisaligned ⟨rate, minLn⟩ read penalty
    · rw [if_neg (not_not_intro h)]
      exact iff_of_true rfl h
    · rw [if_pos h]
      exact iff_of_false (by decide) h

/-- Witness for the amended C5 statement at penalty 2, mapping quality 20,
region size 100, rate 1/1000 and threshold -10. -/
theorem lnProbability_formula_amended_witness :
    lnProbabilityReadCorrectlyAligned 2 ⟨20, 100⟩ (1 / 1000)
        = claimedLnProbability 2 ⟨20, 100⟩ (1 / 1000) ∧
      (addReadRoute ⟨1 / 1000, -10⟩ ⟨20, 100⟩ 2 = CandidateBucket.misaligned ↔
        lnProbabilityReadCorrectlyAligned 2 ⟨20, 100⟩ (1 / 1000) < -10) :=
  lnProbability_formula_amended 2 ⟨20, 100⟩ (1 / 1000) (-10)
    (by
      rw [Ne, Nat.floor_eq_zero]
      norm_num)

end Octopus
